import Mathlib

/-!
Shallow embedding of the font/galley caching layer of `epaint`
(`src/epaint/src/text/fonts.rs`).

Modelling conventions:
* Rust `f32` values are modelled as `ℚ` (exact rational arithmetic).  The
  arithmetic operations are given by kernel-computable wrappers
  (`qadd`, `qsub`, `qmul`, `qdiv`, `qabs`) built on `mkRat`, so concrete
  states evaluate with `decide`.  Rust's `f32::round` (round half away
  from zero) is `rustRound`, and the saturating cast `as u32` is
  `f32ToU32`.
* Rust maps (`BTreeMap`, `AHashMap`, `nohash IntMap`) are association
  lists with `lookupKey` / `setKey`; `setKey` updates the first matching
  key or appends.
* `Arc` sharing is modelled by identity tags: a `TextureAtlas` carries an
  `id : ℕ` that changes exactly when a fresh atlas is allocated, and a
  `Galley` carries a `uid : ℕ` freshly allocated at layout time, standing
  for the pointer identity of the `Arc<Galley>`.
* Rust panics (asserts, `unwrap`, `panic!`) are `Option.none`.
* External collaborators (the `ab_glyph` parser, the atlas fill ratio, the
  layout-job hash, glyph-presence queries, the system font source) are
  modelled as data fields or function parameters; they are outside the
  verified core.
-/

/-- Association-list lookup (first occurrence wins), on decidable keys. -/
def lookupKey {α β : Type} [DecidableEq α] (k : α) : List (α × β) → Option β
  | [] => none
  | (a, b) :: t => if a = k then some b else lookupKey k t

/-- Association-list update-or-append: replaces the first binding of `k`,
or appends a new binding when absent. -/
def setKey {α β : Type} [DecidableEq α] (k : α) (v : β) : List (α × β) → List (α × β)
  | [] => [(k, v)]
  | (a, b) :: t => if a = k then (k, v) :: t else (a, b) :: setKey k v t

/-- Kernel-computable `ℚ` addition (Rust `f32` `+`, modelled exactly). -/
def qadd (a b : ℚ) : ℚ := mkRat (a.num * (b.den : ℤ) + b.num * (a.den : ℤ)) (a.den * b.den)

/-- Kernel-computable `ℚ` subtraction (Rust `f32` `-`, modelled exactly). -/
def qsub (a b : ℚ) : ℚ := mkRat (a.num * (b.den : ℤ) - b.num * (a.den : ℤ)) (a.den * b.den)

/-- Kernel-computable `ℚ` multiplication (Rust `f32` `*`, modelled exactly). -/
def qmul (a b : ℚ) : ℚ := mkRat (a.num * b.num) (a.den * b.den)

/-- Kernel-computable `ℚ` division (Rust `f32` `/`, modelled exactly;
division by zero yields 0, never hit by the code under its invariants). -/
def qdiv (a b : ℚ) : ℚ :=
  if b.num < 0 then mkRat (-(a.num * (b.den : ℤ))) (a.den * b.num.natAbs)
  else mkRat (a.num * (b.den : ℤ)) (a.den * b.num.toNat)

/-- Kernel-computable absolute value (Rust `f32::abs`). -/
def qabs (a : ℚ) : ℚ := if a.num < 0 then -a else a

/-- Rust `f32::round`: round half away from zero. -/
def rustRound (q : ℚ) : ℤ :=
  if q.num < 0 then -(qadd (-q) (mkRat 1 2)).floor else (qadd q (mkRat 1 2)).floor

/-- Rust's saturating float-to-`u32` cast (`as u32`): negatives clamp to 0,
large values clamp to `2^32 - 1`. -/
def f32ToU32 (q : ℚ) : ℕ :=
  min (rustRound q).toNat 4294967295

/-! ## Data model (`fonts.rs` types) -/

/-- Extra scale and vertical tweak to apply to all text of a certain font. -/
structure FontTweak where
  scale : ℚ
  y_offset_factor : ℚ
  y_offset : ℚ
deriving DecidableEq

/-- Embeds `FontTweak::default()`: scale 1.0, y_offset_factor −0.2, y_offset 0.0. -/
def FontTweak.default : FontTweak := ⟨1, mkRat (-2) 10, 0⟩

/-- A `.ttf`/`.otf` blob plus face index and tweak (`FontData`).  The
`Cow` distinction (borrowed/owned) is collapsed to the byte list. -/
structure FontData where
  font : List ℕ
  index : ℕ
  tweak : FontTweak
deriving DecidableEq

/-- Embeds `FontData::from_owned`. -/
def FontData.from_owned (bytes : List ℕ) : FontData := ⟨bytes, 0, FontTweak.default⟩

/-- Embeds `FontType`: Proportional, Monospace, or a user-chosen name. -/
inductive FontType where
  | Proportional : FontType
  | Monospace : FontType
  | Name : String → FontType
deriving DecidableEq

/-- Embeds `FontId`: height in points plus family. -/
structure FontId where
  size : ℚ
  font_type : FontType
deriving DecidableEq

/-- Embeds `FontDefinitions`: registered font records and family fallback chains. -/
structure FontDefinitions where
  font_data_map : List (String × FontData)
  type_fonts : List (FontType × List String)
deriving DecidableEq

/-- A parsed `ab_glyph` font.  The parser is an external collaborator; it is
modelled as the total map keeping the bytes and face index.  (Its panic on
malformed bytes is outside the modelled core.) -/
structure FontArc where
  data_bytes : List ℕ
  index : ℕ
deriving DecidableEq

/-- Embeds `ab_glyph_font_from_font_data` (external parser, modelled total). -/
def ab_glyph_font_from_font_data (_name : String) (data : FontData) : FontArc :=
  ⟨data.font, data.index⟩

/-- The shared glyph atlas.  `id` models the identity of the
`Arc<Mutex<TextureAtlas>>` allocation; `fill` models the externally
computed `fill_ratio()`. -/
structure TextureAtlas where
  id : ℕ
  width : ℕ
  height : ℕ
  fill : ℚ
deriving DecidableEq

/-- Embeds `TextureAtlas::new([width, height])`, at a fresh identity. -/
def TextureAtlas.new (id : ℕ) (width height : ℕ) : TextureAtlas :=
  ⟨id, width, height, 0⟩

/-- A rasterizer bound to one font at one pixel scale (`FontImpl`).
It holds a clone of the shared atlas handle (`atlas_id`). -/
structure FontImpl where
  atlas_id : ℕ
  pixels_per_point : ℚ
  name : String
  ab_glyph_font : FontArc
  scale_in_pixels : ℕ
  y_offset_points : ℚ
deriving DecidableEq

/-- Embeds `FontImplManager`: the resolved fallback chain, probed in order. -/
structure FontImplManager where
  fonts : List FontImpl
deriving DecidableEq

/-- Embeds `FontImplManager::push_font_impl`: append a fallback in place. -/
def FontImplManager.push_font_impl (m : FontImplManager) (f : FontImpl) : FontImplManager :=
  ⟨m.fonts ++ [f]⟩

/-! ## Font-implementation cache (`FontsImplCache`) -/

structure FontsImplCache where
  atlas_id : ℕ
  pixels_per_point : ℚ
  ab_glyph_fonts : List (String × (FontTweak × FontArc))
  cache : List ((ℕ × String) × FontImpl)
deriving DecidableEq

/-- Embeds `FontsImplCache::new`: parse every registered record once. -/
def FontsImplCache.new (atlas_id : ℕ) (pixels_per_point : ℚ)
    (font_data : List (String × FontData)) : FontsImplCache :=
  { atlas_id, pixels_per_point,
    ab_glyph_fonts :=
      font_data.map (fun p => (p.1, (p.2.tweak, ab_glyph_font_from_font_data p.1 p.2))),
    cache := [] }

/-- Embeds `FontsImplCache::scale_as_pixels`: round `pixels_per_point * points`
to a whole number of physical pixels (`f32::round` then `as u32`). -/
def FontsImplCache.scale_as_pixels (c : FontsImplCache) (scale_in_points : ℚ) : ℕ :=
  f32ToU32 (qmul c.pixels_per_point scale_in_points)

/-- Embeds `FontsImplCache::font_impl`.  `none` models the panic on an
unregistered font name.  The returned `Bool` is instrumentation: `true`
iff a new `FontImpl` was constructed (the `or_insert_with` closure ran). -/
def FontsImplCache.font_impl (c : FontsImplCache) (scale_in_pixels : ℕ)
    (font_name : String) : Option (FontImpl × FontsImplCache × Bool) :=
  match lookupKey font_name c.ab_glyph_fonts with
  | none => none
  | some (tweak, abf) =>
    let eff := f32ToU32 (qmul (mkRat scale_in_pixels 1) tweak.scale)
    let y_offset_points :=
      qadd (qmul (qdiv (mkRat eff 1) c.pixels_per_point) tweak.y_offset_factor) tweak.y_offset
    match lookupKey (eff, font_name) c.cache with
    | some impl => some (impl, c, false)
    | none =>
      let impl : FontImpl :=
        ⟨c.atlas_id, c.pixels_per_point, font_name, abf, eff, y_offset_points⟩
      some (impl, { c with cache := setKey (eff, font_name) impl c.cache }, true)

/-! ## Fonts manager (`FontsManager`) -/

structure FontsManager where
  pixels_per_point : ℚ
  max_texture_side : ℕ
  definitions : FontDefinitions
  atlas : TextureAtlas
  fonts_impl_cache : FontsImplCache
  font_impl_manager_map : List ((ℕ × FontType) × FontImplManager)
deriving DecidableEq

/-- Embeds `FontsManager::new`.  `none` models the panic of
`assert!(0.0 < pixels_per_point && pixels_per_point < 100.0)`.  The fresh
atlas gets the identity `atlas_id` supplied by the caller (allocation). -/
def FontsManager.new (atlas_id : ℕ) (pixels_per_point : ℚ) (max_texture_side : ℕ)
    (definitions : FontDefinitions) : Option FontsManager :=
  if 0 < pixels_per_point ∧ pixels_per_point < 100 then
    let texture_width := min max_texture_side 8192
    let initial_height := 64
    let atlas := TextureAtlas.new atlas_id texture_width initial_height
    some { pixels_per_point, max_texture_side, definitions, atlas,
           fonts_impl_cache :=
             FontsImplCache.new atlas_id pixels_per_point definitions.font_data_map,
           font_impl_manager_map := [] }
  else none

/-- The `fonts.iter().map(|font_name| font_impl ...).collect()` loop inside
`FontsManager::font`, threading the implementation cache. -/
def resolveFonts (scale_in_pixels : ℕ) :
    FontsImplCache → List String → Option (List FontImpl × FontsImplCache)
  | c, [] => some ([], c)
  | c, n :: rest =>
    match c.font_impl scale_in_pixels n with
    | none => none
    | some (impl, c1, _) =>
      match resolveFonts scale_in_pixels c1 rest with
      | none => none
      | some (l, c2) => some (impl :: l, c2)

/-- Embeds `FontsManager::font`: memoized fallback-chain resolution.  `none`
models the panics (family not bound to any fonts, or a chain member not
registered in the implementation cache). -/
def FontsManager.font (m : FontsManager) (font_id : FontId) :
    Option (FontImplManager × FontsManager) :=
  let scale_in_pixels := m.fonts_impl_cache.scale_as_pixels font_id.size
  match lookupKey (scale_in_pixels, font_id.font_type) m.font_impl_manager_map with
  | some mgr => some (mgr, m)
  | none =>
    match lookupKey font_id.font_type m.definitions.type_fonts with
    | none => none
    | some names =>
      match resolveFonts scale_in_pixels m.fonts_impl_cache names with
      | none => none
      | some (impls, cache1) =>
        let mgr : FontImplManager := ⟨impls⟩
        some (mgr,
          { m with
            fonts_impl_cache := cache1,
            font_impl_manager_map :=
              setKey (scale_in_pixels, font_id.font_type) mgr m.font_impl_manager_map })

/-! ## Layout jobs and the galley cache -/

/-- Modelled from the spec: `LayoutJob` and `LayoutJob::simple` live in the
text-layout module, which is not among the sources here.  The spec says a
request carries the text, style, color and wrap width; `⊤ : WithTop ℚ`
stands for `f32::INFINITY`. -/
structure LayoutJob where
  text : List Char
  font_id : FontId
  color : ℕ
  wrap_width : WithTop ℚ
deriving DecidableEq

/-- Modelled from the spec: `LayoutJob::simple(text, font_id, color, wrap_width)`. -/
def LayoutJob.simple (text : List Char) (font_id : FontId) (color : ℕ)
    (wrap_width : WithTop ℚ) : LayoutJob :=
  ⟨text, font_id, color, wrap_width⟩

/-- The shaped layout result (`Arc<Galley>`).  `uid` models the pointer
identity of the `Arc`; `atlas_id` records which atlas instance the glyph
geometry references (set by the external `super::layout` at build time). -/
structure Galley where
  uid : ℕ
  atlas_id : ℕ
  job : LayoutJob
deriving DecidableEq

/-- Embeds `CachedGalley`: a galley stamped with the generation it was last used in. -/
structure CachedGalley where
  last_used : ℕ
  galley : Galley
deriving DecidableEq

/-- Embeds `GalleyCache`.  `generation` is a `u32` (kept `< 2^32` by wrapping
arithmetic); `next_uid` models the allocator of fresh `Arc` identities
(not a source field — pointer identity made explicit). -/
structure GalleyCache where
  generation : ℕ := 0
  cache : List (ℕ × CachedGalley) := []
  next_uid : ℕ := 0
deriving DecidableEq

/-- Embeds `GalleyCache::layout`.  `hashJob` is the external content-hash
collaborator (`crate::util::hash`).  The returned `Bool` is
instrumentation: `true` iff the vacant branch ran, i.e. the underlying
layout computation (`super::layout`) was performed.  The external layout
computation itself is modelled as producing a galley tagged with the
current atlas identity and a fresh `Arc` identity; it reads but does not
replace the fonts manager. -/
def GalleyCache.layout (hashJob : LayoutJob → ℕ) (fonts : FontsManager)
    (c : GalleyCache) (job : LayoutJob) : Galley × GalleyCache × Bool :=
  let h := hashJob job
  match lookupKey h c.cache with
  | some cached =>
    let cached1 : CachedGalley := { cached with last_used := c.generation }
    (cached.galley, { c with cache := setKey h cached1 c.cache }, false)
  | none =>
    let galley : Galley := ⟨c.next_uid, fonts.atlas.id, job⟩
    (galley,
     { c with
       cache := setKey h ⟨c.generation, galley⟩ c.cache,
       next_uid := c.next_uid + 1 },
     true)

/-- Embeds `GalleyCache::num_galleys_in_cache`. -/
def GalleyCache.num_galleys_in_cache (c : GalleyCache) : ℕ := c.cache.length

/-- Embeds `GalleyCache::flush_cache`: retain exactly the entries last used in the
current generation, then advance the generation with `u32::wrapping_add`. -/
def GalleyCache.flush_cache (c : GalleyCache) : GalleyCache :=
  { c with
    cache := c.cache.filter (fun kv => kv.2.last_used == c.generation),
    generation := (c.generation + 1) % 4294967296 }

/-! ## Orchestrator (`FontPaintManager` over `FontManagerAndGallyCache`) -/

structure FontManagerAndGallyCache where
  font_manager : FontsManager
  galley_cache : GalleyCache
deriving DecidableEq

/-- Embeds `FontManagerAndGallyCache::layout_job` (with the instrumentation bit of
`GalleyCache::layout`). -/
def FontManagerAndGallyCache.layout_job (hashJob : LayoutJob → ℕ)
    (s : FontManagerAndGallyCache) (job : LayoutJob) :
    Galley × FontManagerAndGallyCache × Bool :=
  let r := s.galley_cache.layout hashJob s.font_manager job
  (r.1, { s with galley_cache := r.2.1 }, r.2.2)

/-- Embeds `FontPaintManager::new`: construct the orchestrator (fresh atlas
identity 0, empty galley cache).  `none` models the constructor panic. -/
def FontPaintManager.new (pixels_per_point : ℚ) (max_texture_side : ℕ)
    (definitions : FontDefinitions) : Option FontManagerAndGallyCache :=
  match FontsManager.new 0 pixels_per_point max_texture_side definitions with
  | none => none
  | some fm => some ⟨fm, {}⟩

/-- Embeds `FontPaintManager::begin_frame`.  Computes the three invalidation
triggers; on any trigger, rebuilds the whole state from the retained
`definitions` with a fresh atlas identity; in all cases then flushes the
galley cache.  `none` models the (re)construction panic on an
out-of-range `pixels_per_point`. -/
def FontPaintManager.begin_frame (s : FontManagerAndGallyCache)
    (pixels_per_point : ℚ) (max_texture_side : ℕ) :
    Option FontManagerAndGallyCache :=
  let pixels_per_point_changed :=
    decide (mkRat 1 1000 < qabs (qsub s.font_manager.pixels_per_point pixels_per_point))
  let max_texture_side_changed := decide (s.font_manager.max_texture_side ≠ max_texture_side)
  let font_atlas_almost_full := decide (mkRat 4 5 < s.font_manager.atlas.fill)
  let needs_recreate :=
    pixels_per_point_changed || max_texture_side_changed || font_atlas_almost_full
  let after :=
    if needs_recreate then
      match FontsManager.new (s.font_manager.atlas.id + 1) pixels_per_point
          max_texture_side s.font_manager.definitions with
      | none => none
      | some fm => some (⟨fm, {}⟩ : FontManagerAndGallyCache)
    else some s
  match after with
  | none => none
  | some s1 => some { s1 with galley_cache := s1.galley_cache.flush_cache }

/-- Embeds `FontPaintManager::layout`: wrap at the given width. -/
def FontPaintManager.layout (hashJob : LayoutJob → ℕ) (s : FontManagerAndGallyCache)
    (text : List Char) (font_id : FontId) (color : ℕ) (wrap_width : WithTop ℚ) :
    Galley × FontManagerAndGallyCache × Bool :=
  s.layout_job hashJob (LayoutJob.simple text font_id color wrap_width)

/-- Embeds `FontPaintManager::layout_no_wrap`: line break only at newlines
(wrap width `f32::INFINITY`). -/
def FontPaintManager.layout_no_wrap (hashJob : LayoutJob → ℕ)
    (s : FontManagerAndGallyCache) (text : List Char) (font_id : FontId) (color : ℕ) :
    Galley × FontManagerAndGallyCache × Bool :=
  s.layout_job hashJob (LayoutJob.simple text font_id color ⊤)

/-! ## Dynamic fallback extension (`ensure_correct_fonts_for_text`) -/

/-- A system-discovered font file that was successfully read: the result of
one `Handle::Path` arm whose `fs::read` succeeded, with the file's base
name already extracted.  (The system source and the filesystem are
external collaborators.) -/
structure SysFont where
  file_name : String
  bytes : List ℕ
deriving DecidableEq

/-- A `for` loop over `l` whose body can panic: thread the state, stop at
the first `none`. -/
def foldOptionM {α σ : Type} (f : σ → α → Option σ) : σ → List α → Option σ
  | s, [] => some s
  | s, a :: rest =>
    match f s a with
    | none => none
    | some s1 => foldOptionM f s1 rest

/-- Embeds `definitions.type_fonts.entry(ft).or_default().push(name)`. -/
def pushTypeFont (ft : FontType) (name : String)
    (tf : List (FontType × List String)) : List (FontType × List String) :=
  match lookupKey ft tf with
  | some l => setKey ft (l ++ [name]) tf
  | none => setKey ft [name] tf

/-- One iteration of the inner `for font in fonts.fonts()` body of
`ensure_correct_fonts_for_text`: register the record (keeping an existing
one), append the name to both built-in chains, (re)parse into the
implementation cache, build its `FontImpl`, and push it onto the memoized
fallback chain of `main_font_id`. -/
def FontsManager.processSysFont (scale_in_pixels : ℕ) (main_font_id : FontId)
    (m : FontsManager) (sf : SysFont) : Option FontsManager :=
  let font_data :=
    match lookupKey sf.file_name m.definitions.font_data_map with
    | some d => d
    | none => FontData.from_owned sf.bytes
  let defs1 :=
    { m.definitions with
      font_data_map := setKey sf.file_name font_data m.definitions.font_data_map }
  let defs2 :=
    { defs1 with
      type_fonts :=
        pushTypeFont FontType.Proportional sf.file_name
          (pushTypeFont FontType.Monospace sf.file_name defs1.type_fonts) }
  let abf := ab_glyph_font_from_font_data sf.file_name font_data
  let fic1 :=
    { m.fonts_impl_cache with
      ab_glyph_fonts :=
        setKey sf.file_name (font_data.tweak, abf) m.fonts_impl_cache.ab_glyph_fonts }
  match fic1.font_impl scale_in_pixels sf.file_name with
  | none => none
  | some (new_font_impl, fic2, _) =>
    let m1 := { m with definitions := defs2, fonts_impl_cache := fic2 }
    match m1.font main_font_id with
    | none => none
    | some (mgr, m2) =>
      let key := (m2.fonts_impl_cache.scale_as_pixels main_font_id.size,
                  main_font_id.font_type)
      some { m2 with
             font_impl_manager_map :=
               setKey key (mgr.push_font_impl new_font_impl) m2.font_impl_manager_map }

/-- One iteration of the outer `for c in text.chars()` loop: skip the
character when the current chain has a glyph for it, otherwise process
every system-discovered candidate font. -/
def FontsManager.ensureChar (hasGlyph : FontImplManager → Char → Bool)
    (sysQuery : Char → List SysFont) (scale_in_pixels : ℕ) (main_font_id : FontId)
    (m : FontsManager) (c : Char) : Option FontsManager :=
  match m.font main_font_id with
  | none => none
  | some (mgr, m1) =>
    if hasGlyph mgr c then some m1
    else foldOptionM (FontsManager.processSysFont scale_in_pixels main_font_id) m1 (sysQuery c)

/-- Embeds `FontsManager::ensure_correct_fonts_for_text` (feature `system_fonts`).
`hasGlyph` models `FontImplManager::has_glyph_info_and_cache`; `sysQuery`
models `FontDefinitions::query_fonts_for_character` composed with the
`Handle::Path` match and `fs::read` (only successful reads appear). -/
def FontsManager.ensure_correct_fonts_for_text
    (hasGlyph : FontImplManager → Char → Bool) (sysQuery : Char → List SysFont)
    (m : FontsManager) (text : List Char) (main_font_id : FontId) :
    Option FontsManager :=
  let scale_in_pixels := m.fonts_impl_cache.scale_as_pixels main_font_id.size
  match m.font main_font_id with
  | none => none
  | some (_, m1) =>
    foldOptionM (FontsManager.ensureChar hasGlyph sysQuery scale_in_pixels main_font_id) m1 text

/-! ## Observable transitions and reachable states -/

/-- One observable transition of the orchestrator state: a per-frame step,
a layout request, an external mutation of the atlas contents (growth /
fill change under its own lock — never its identity), or a dynamic
fallback extension. -/
inductive OrchestratorStep (hashJob : LayoutJob → ℕ) :
    FontManagerAndGallyCache → FontManagerAndGallyCache → Prop
  | begin_frame (s s' : FontManagerAndGallyCache) (ppp : ℚ) (mts : ℕ)
      (h : FontPaintManager.begin_frame s ppp mts = some s') :
      OrchestratorStep hashJob s s'
  | layout_job (s : FontManagerAndGallyCache) (job : LayoutJob) :
      OrchestratorStep hashJob s (s.layout_job hashJob job).2.1
  | atlas_external (s : FontManagerAndGallyCache) (fill : ℚ) (height : ℕ) :
      OrchestratorStep hashJob s
        { s with
          font_manager :=
            { s.font_manager with
              atlas := { s.font_manager.atlas with fill := fill, height := height } } }
  | ensure_fonts (s : FontManagerAndGallyCache)
      (hasGlyph : FontImplManager → Char → Bool) (sysQuery : Char → List SysFont)
      (text : List Char) (fid : FontId) (m1 : FontsManager)
      (h : FontsManager.ensure_correct_fonts_for_text hasGlyph sysQuery
             s.font_manager text fid = some m1) :
      OrchestratorStep hashJob s { s with font_manager := m1 }

/-- States reachable from `s0` by any sequence of observable transitions. -/
def OrchestratorReachable (hashJob : LayoutJob → ℕ)
    (s0 s : FontManagerAndGallyCache) : Prop :=
  Relation.ReflTransGen (OrchestratorStep hashJob) s0 s

/-- The manager fields that fallback resolution and dynamic extension never
touch: device ratio, texture bound, the atlas instance, and the
implementation cache's shared-handle and ratio fields. -/
def FontsManager.outerPreserved (m m' : FontsManager) : Prop :=
  m'.pixels_per_point = m.pixels_per_point ∧
  m'.max_texture_side = m.max_texture_side ∧
  m'.atlas = m.atlas ∧
  m'.fonts_impl_cache.atlas_id = m.fonts_impl_cache.atlas_id ∧
  m'.fonts_impl_cache.pixels_per_point = m.fonts_impl_cache.pixels_per_point

/-- The layout requests of one frame, submitted in order (fonts manager
held fixed; layout never replaces it, see `GalleyCache.layout`). -/
def runJobs (hashJob : LayoutJob → ℕ) (fonts : FontsManager)
    (c : GalleyCache) (jobs : List LayoutJob) : GalleyCache :=
  jobs.foldl (fun acc job => (acc.layout hashJob fonts job).2.1) c

/-- A tiny concrete catalog: one registered font bound to both built-in
families (used to instantiate universally quantified theorems). -/
def sampleDefinitions : FontDefinitions :=
  { font_data_map := [("Ubuntu-Light", ⟨[0, 1], 0, FontTweak.default⟩)],
    type_fonts :=
      [(FontType.Proportional, ["Ubuntu-Light"]),
       (FontType.Monospace, ["Ubuntu-Light"])] }

/-- A concrete manager state at ratio 2, as built by `FontsManager.new`. -/
def sampleFonts : FontsManager :=
  { pixels_per_point := mkRat 2 1,
    max_texture_side := 1024,
    definitions := sampleDefinitions,
    atlas := ⟨0, 1024, 64, 0⟩,
    fonts_impl_cache := FontsImplCache.new 0 (mkRat 2 1) sampleDefinitions.font_data_map,
    font_impl_manager_map := [] }

/-- A concrete layout-request hash for instantiations: a tiny injective-on
-samples content hash (the real one is an external collaborator). -/
def sampleHash (j : LayoutJob) : ℕ :=
  j.text.length + (match j.wrap_width with | none => 7 | some _ => 0)

/-- A concrete layout job. -/
def sampleJob : LayoutJob :=
  LayoutJob.simple ['H', 'i'] ⟨mkRat 14 1, FontType.Proportional⟩ 255 ⊤

/-- A concrete cached galley for instantiations. -/
def sampleGalley : Galley := ⟨0, 0, sampleJob⟩

/-- A one-entry galley cache in generation 5 (entry stamped this frame). -/
def sampleCacheC1 : GalleyCache :=
  { generation := 5, cache := [(11, ⟨5, sampleGalley⟩)], next_uid := 1 }

/-- A one-entry galley cache at the `u32` wrap boundary. -/
def sampleCacheC8 : GalleyCache :=
  { generation := 4294967295, cache := [(3, ⟨4294967295, sampleGalley⟩)], next_uid := 1 }

/-- The orchestrator state produced by constructing at ratio 2 with max
side 1024 over the sample catalog. -/
def sampleConstructed : FontManagerAndGallyCache :=
  { font_manager :=
      { pixels_per_point := mkRat 2 1,
        max_texture_side := 1024,
        definitions := sampleDefinitions,
        atlas := ⟨0, 1024, 64, 0⟩,
        fonts_impl_cache := FontsImplCache.new 0 (mkRat 2 1) sampleDefinitions.font_data_map,
        font_impl_manager_map := [] },
    galley_cache := {} }

/-- The implementation constructed by `font_impl` for registered tweak
`tweak` and parsed font `abf` at requested pixel scale `s`. -/
def builtFontImpl (c : FontsImplCache) (s : ℕ) (n : String)
    (tweak : FontTweak) (abf : FontArc) : FontImpl :=
  ⟨c.atlas_id, c.pixels_per_point, n, abf,
   f32ToU32 (qmul (mkRat s 1) tweak.scale),
   qadd (qmul (qdiv (mkRat (f32ToU32 (qmul (mkRat s 1) tweak.scale)) 1)
     c.pixels_per_point) tweak.y_offset_factor) tweak.y_offset⟩

/-- The state produced by `begin_frame`'s rebuild branch at the sample
constructed state when the ratio changes from 2 to 3. -/
def sampleRebuilt : FontManagerAndGallyCache :=
  { font_manager :=
      { pixels_per_point := mkRat 3 1,
        max_texture_side := 1024,
        definitions := sampleDefinitions,
        atlas := ⟨1, 1024, 64, 0⟩,
        fonts_impl_cache := FontsImplCache.new 1 (mkRat 3 1) sampleDefinitions.font_data_map,
        font_impl_manager_map := [] },
    galley_cache := GalleyCache.flush_cache {} }

/-- A concrete state whose `(28, Proportional)` chain is already memoized
(as `font` leaves it after one resolution). -/
def sampleResolvedPair : FontManagerAndGallyCache :=
  { font_manager :=
      { sampleFonts with
        font_impl_manager_map := [((28, FontType.Proportional), ⟨[]⟩)] },
    galley_cache := {} }

/-! ## Theorems -/

theorem lookupKey_setKey_self {α β : Type} [DecidableEq α] (k : α) (v : β) :
    ∀ l : List (α × β), lookupKey k (setKey k v l) = some v := by
  intro l
  induction l with
  | nil => simp [lookupKey, setKey]
  | cons hd t ih =>
    obtain ⟨a, b⟩ := hd
    by_cases h : a = k
    · simp [lookupKey, setKey, h]
    · simp [lookupKey, setKey, h, ih]

theorem lookupKey_setKey_ne {α β : Type} [DecidableEq α] {k k' : α} (v : β)
    (hne : k ≠ k') : ∀ l : List (α × β), lookupKey k' (setKey k v l) = lookupKey k' l := by
  intro l
  induction l with
  | nil =>
    have : ¬ k = k' := hne
    simp [lookupKey, setKey, this]
  | cons hd t ih =>
    obtain ⟨a, b⟩ := hd
    by_cases h : a = k
    · subst h
      have : ¬ a = k' := hne
      simp [lookupKey, setKey, this]
    · simp [lookupKey, setKey, h, ih]

/-! ## Preservation lemmas -/

theorem font_impl_preserves {c c' : FontsImplCache} {s : ℕ} {n : String}
    {impl : FontImpl} {b : Bool} (h : c.font_impl s n = some (impl, c', b)) :
    c'.atlas_id = c.atlas_id ∧ c'.pixels_per_point = c.pixels_per_point ∧
      c'.ab_glyph_fonts = c.ab_glyph_fonts := by
  unfold FontsImplCache.font_impl at h
  split at h
  · exact absurd h (by simp)
  · dsimp only at h
    split at h
    · simp only [Option.some.injEq, Prod.mk.injEq] at h
      obtain ⟨-, h2, -⟩ := h
      subst h2
      exact ⟨rfl, rfl, rfl⟩
    · simp only [Option.some.injEq, Prod.mk.injEq] at h
      obtain ⟨-, h2, -⟩ := h
      subst h2
      exact ⟨rfl, rfl, rfl⟩

theorem resolveFonts_preserves {s : ℕ} :
    ∀ {names : List String} {c c' : FontsImplCache} {l : List FontImpl},
      resolveFonts s c names = some (l, c') →
      c'.atlas_id = c.atlas_id ∧ c'.pixels_per_point = c.pixels_per_point ∧
        c'.ab_glyph_fonts = c.ab_glyph_fonts := by
  intro names
  induction names with
  | nil =>
    intro c c' l h
    unfold resolveFonts at h
    simp only [Option.some.injEq, Prod.mk.injEq] at h
    obtain ⟨-, h2⟩ := h
    subst h2
    exact ⟨rfl, rfl, rfl⟩
  | cons n rest ih =>
    intro c c' l h
    unfold resolveFonts at h
    split at h
    · exact absurd h (by simp)
    · rename_i impl c1 b heq
      split at h
      · exact absurd h (by simp)
      · rename_i l2 c2 heq2
        simp only [Option.some.injEq, Prod.mk.injEq] at h
        obtain ⟨-, h2⟩ := h
        subst h2
        obtain ⟨ha1, hp1, hg1⟩ := font_impl_preserves heq
        obtain ⟨ha2, hp2, hg2⟩ := ih heq2
        exact ⟨ha2.trans ha1, hp2.trans hp1, hg2.trans hg1⟩

theorem outerPreserved_refl (m : FontsManager) : m.outerPreserved m :=
  ⟨rfl, rfl, rfl, rfl, rfl⟩

theorem outerPreserved_trans {a b c : FontsManager}
    (h1 : a.outerPreserved b) (h2 : b.outerPreserved c) : a.outerPreserved c := by
  obtain ⟨p1, p2, p3, p4, p5⟩ := h1
  obtain ⟨q1, q2, q3, q4, q5⟩ := h2
  exact ⟨q1.trans p1, q2.trans p2, q3.trans p3, q4.trans p4, q5.trans p5⟩

theorem font_preserves {m m' : FontsManager} {fid : FontId} {mgr : FontImplManager}
    (h : m.font fid = some (mgr, m')) : m.outerPreserved m' := by
  unfold FontsManager.font at h
  dsimp only at h
  cases hmemo : lookupKey (m.fonts_impl_cache.scale_as_pixels fid.size, fid.font_type)
      m.font_impl_manager_map with
  | some mgr0 =>
    simp only [hmemo, Option.some.injEq, Prod.mk.injEq] at h
    obtain ⟨-, h2⟩ := h
    subst h2
    exact outerPreserved_refl _
  | none =>
    simp only [hmemo] at h
    cases htf : lookupKey fid.font_type m.definitions.type_fonts with
    | none => simp [htf] at h
    | some names =>
      simp only [htf] at h
      cases hres : resolveFonts (m.fonts_impl_cache.scale_as_pixels fid.size)
          m.fonts_impl_cache names with
      | none => simp [hres] at h
      | some pr =>
        obtain ⟨impls, cache1⟩ := pr
        simp only [hres, Option.some.injEq, Prod.mk.injEq] at h
        obtain ⟨-, h2⟩ := h
        subst h2
        obtain ⟨ha, hp, -⟩ := resolveFonts_preserves hres
        exact ⟨rfl, rfl, rfl, ha, hp⟩

theorem processSysFont_preserves {s : ℕ} {fid : FontId} {m m' : FontsManager}
    {sf : SysFont} (h : m.processSysFont s fid sf = some m') : m.outerPreserved m' := by
  unfold FontsManager.processSysFont at h
  dsimp only at h
  split at h
  · exact absurd h (by simp)
  · rename_i new_font_impl fic2 b heq
    split at h
    · exact absurd h (by simp)
    · rename_i mgr m2 heq2
      simp only [Option.some.injEq] at h
      subst h
      obtain ⟨ha, hp, -⟩ := font_impl_preserves heq
      have h1 := font_preserves heq2
      obtain ⟨q1, q2, q3, q4, q5⟩ := h1
      exact ⟨q1, q2, q3, q4.trans ha, q5.trans hp⟩

theorem foldOptionM_outerPreserved {α : Type} {f : FontsManager → α → Option FontsManager}
    (hf : ∀ m a m', f m a = some m' → m.outerPreserved m') :
    ∀ (l : List α) (m m' : FontsManager), foldOptionM f m l = some m' →
      m.outerPreserved m' := by
  intro l
  induction l with
  | nil =>
    intro m m' h
    simp only [foldOptionM, Option.some.injEq] at h
    subst h
    exact outerPreserved_refl _
  | cons a rest ih =>
    intro m m' h
    unfold foldOptionM at h
    cases hf1 : f m a with
    | none => rw [hf1] at h; exact absurd h (by simp)
    | some m1 =>
      rw [hf1] at h
      exact outerPreserved_trans (hf m a m1 hf1) (ih m1 m' h)

theorem ensureChar_preserves {hasGlyph : FontImplManager → Char → Bool}
    {sysQuery : Char → List SysFont} {s : ℕ} {fid : FontId} {m m' : FontsManager}
    {c : Char} (h : FontsManager.ensureChar hasGlyph sysQuery s fid m c = some m') :
    m.outerPreserved m' := by
  unfold FontsManager.ensureChar at h
  split at h
  · exact absurd h (by simp)
  · rename_i mgr m1 heq
    have h1 := font_preserves heq
    split at h
    · simp only [Option.some.injEq] at h
      subst h
      exact h1
    · exact outerPreserved_trans h1
        (foldOptionM_outerPreserved (fun m a m' hp => processSysFont_preserves hp) _ _ _ h)

theorem ensure_preserves {hasGlyph : FontImplManager → Char → Bool}
    {sysQuery : Char → List SysFont} {m m' : FontsManager} {text : List Char}
    {fid : FontId}
    (h : FontsManager.ensure_correct_fonts_for_text hasGlyph sysQuery m text fid = some m') :
    m.outerPreserved m' := by
  unfold FontsManager.ensure_correct_fonts_for_text at h
  dsimp only at h
  split at h
  · exact absurd h (by simp)
  · rename_i mgr m1 heq
    exact outerPreserved_trans (font_preserves heq)
      (foldOptionM_outerPreserved (fun m a m' hp => ensureChar_preserves hp) _ _ _ h)

/-! ## Galley-cache lemmas -/

theorem lookupKey_eq_none_iff {α β : Type} [DecidableEq α] (k : α) :
    ∀ l : List (α × β), lookupKey k l = none ↔ k ∉ l.map Prod.fst := by
  intro l
  induction l with
  | nil => simp [lookupKey]
  | cons hd t ih =>
    obtain ⟨a, b⟩ := hd
    by_cases h : a = k
    · subst h
      simp [lookupKey]
    · simp [lookupKey, h, ih, Ne.symm h]

theorem lookupKey_filter_of_none {α β : Type} [DecidableEq α] (p : α × β → Bool) (k : α) :
    ∀ l : List (α × β), lookupKey k l = none → lookupKey k (l.filter p) = none := by
  intro l
  induction l with
  | nil => simp [lookupKey]
  | cons hd t ih =>
    obtain ⟨a, b⟩ := hd
    intro h
    by_cases ha : a = k
    · subst ha
      simp [lookupKey] at h
    · simp only [lookupKey, if_neg ha] at h
      by_cases hp : p (a, b)
      · simp only [List.filter_cons_of_pos hp, lookupKey, if_neg ha]
        exact ih h
      · simp only [List.filter_cons_of_neg hp]
        exact ih h

theorem lookupKey_filter {α β : Type} [DecidableEq α] (p : α × β → Bool) (k : α) :
    ∀ l : List (α × β), (l.map Prod.fst).Nodup →
      lookupKey k (l.filter p) =
        (lookupKey k l).bind (fun v => if p (k, v) then some v else none) := by
  intro l
  induction l with
  | nil => simp [lookupKey]
  | cons hd t ih =>
    obtain ⟨a, b⟩ := hd
    intro hnd
    simp only [List.map_cons, List.nodup_cons] at hnd
    obtain ⟨hmem, hnd'⟩ := hnd
    by_cases ha : a = k
    · subst ha
      have ht : lookupKey a t = none := (lookupKey_eq_none_iff a t).mpr hmem
      by_cases hp : p (a, b)
      · simp [List.filter_cons_of_pos hp, lookupKey, hp]
      · simp [List.filter_cons_of_neg hp, lookupKey, hp, lookupKey_filter_of_none p a t ht]
    · by_cases hp : p (a, b)
      · simp only [List.filter_cons_of_pos hp, lookupKey, if_neg ha]
        exact ih hnd'
      · simp only [List.filter_cons_of_neg hp, lookupKey, if_neg ha]
        exact ih hnd'

/-- The core of the one-frame recency policy: `flush_cache` retains exactly
the entries whose stamp equals the pre-advance generation counter. -/
theorem flush_retains_iff {c : GalleyCache} (hnd : (c.cache.map Prod.fst).Nodup)
    (k : ℕ) (e : CachedGalley) :
    lookupKey k c.flush_cache.cache = some e ↔
      lookupKey k c.cache = some e ∧ e.last_used = c.generation := by
  unfold GalleyCache.flush_cache
  dsimp only
  rw [lookupKey_filter _ k c.cache hnd]
  cases hl : lookupKey k c.cache with
  | none => simp
  | some v =>
    simp only [Option.some_bind]
    by_cases hp : v.last_used = c.generation
    · rw [if_pos (by simpa using hp)]
      constructor
      · intro hv
        injection hv with hv
        subst hv
        exact ⟨rfl, hp⟩
      · rintro ⟨h1, -⟩
        injection h1 with h1
        subst h1
        rfl
    · rw [if_neg (by simpa using hp)]
      constructor
      · intro hv
        exact absurd hv (by simp)
      · rintro ⟨h1, h2⟩
        injection h1 with h1
        subst h1
        exact absurd h2 hp

/-- Advancing a `u32` by wrapping addition never returns the same value. -/
theorem succ_mod_ne (g : ℕ) : (g + 1) % 4294967296 ≠ g := by
  intro h
  rcases Nat.lt_or_ge g 4294967296 with hlt | hge
  · rcases Nat.lt_or_ge (g + 1) 4294967296 with hlt1 | hge1
    · rw [Nat.mod_eq_of_lt hlt1] at h
      omega
    · have : g = 4294967295 := by omega
      subst this
      simp at h
  · have := Nat.mod_lt (g + 1) (show 0 < 4294967296 by norm_num)
    omega

theorem setKey_setKey {α β : Type} [DecidableEq α] (k : α) (v w : β) :
    ∀ l : List (α × β), setKey k v (setKey k w l) = setKey k v l := by
  intro l
  induction l with
  | nil => simp [setKey]
  | cons hd t ih =>
    obtain ⟨a, b⟩ := hd
    by_cases h : a = k
    · simp [setKey, h]
    · simp [setKey, h, ih]

theorem map_fst_setKey_of_some {α β : Type} [DecidableEq α] {k : α} (v : β) :
    ∀ {l : List (α × β)} {w : β}, lookupKey k l = some w →
      (setKey k v l).map Prod.fst = l.map Prod.fst := by
  intro l
  induction l with
  | nil => intro w h; simp [lookupKey] at h
  | cons hd t ih =>
    obtain ⟨a, b⟩ := hd
    intro w h
    by_cases ha : a = k
    · subst ha
      simp [setKey]
    · simp only [lookupKey, if_neg ha] at h
      simp [setKey, ha, ih h]

theorem map_fst_setKey_of_none {α β : Type} [DecidableEq α] {k : α} (v : β) :
    ∀ {l : List (α × β)}, lookupKey k l = none →
      (setKey k v l).map Prod.fst = l.map Prod.fst ++ [k] := by
  intro l
  induction l with
  | nil => intro h; simp [setKey]
  | cons hd t ih =>
    obtain ⟨a, b⟩ := hd
    intro h
    by_cases ha : a = k
    · subst ha
      simp [lookupKey] at h
    · simp only [lookupKey, if_neg ha] at h
      simp [setKey, ha, ih h]

/-- Equation: `GalleyCache::layout` on a cache hit. -/
theorem layout_hit (hashJob : LayoutJob → ℕ) (fonts : FontsManager)
    (c : GalleyCache) (job : LayoutJob) {cached : CachedGalley}
    (hl : lookupKey (hashJob job) c.cache = some cached) :
    c.layout hashJob fonts job =
      (cached.galley,
       { c with cache :=
           setKey (hashJob job) ⟨c.generation, cached.galley⟩ c.cache },
       false) := by
  unfold GalleyCache.layout
  dsimp only
  rw [hl]

/-- Equation: `GalleyCache::layout` on a cache miss. -/
theorem layout_miss (hashJob : LayoutJob → ℕ) (fonts : FontsManager)
    (c : GalleyCache) (job : LayoutJob)
    (hl : lookupKey (hashJob job) c.cache = none) :
    c.layout hashJob fonts job =
      (⟨c.next_uid, fonts.atlas.id, job⟩,
       { c with
         cache := setKey (hashJob job)
           ⟨c.generation, ⟨c.next_uid, fonts.atlas.id, job⟩⟩ c.cache,
         next_uid := c.next_uid + 1 },
       true) := by
  unfold GalleyCache.layout
  dsimp only
  rw [hl]

theorem layout_generation (hashJob : LayoutJob → ℕ) (fonts : FontsManager)
    (c : GalleyCache) (job : LayoutJob) :
    (c.layout hashJob fonts job).2.1.generation = c.generation := by
  cases hl : lookupKey (hashJob job) c.cache with
  | some cached => rw [layout_hit hashJob fonts c job hl]
  | none => rw [layout_miss hashJob fonts c job hl]

theorem layout_other_key (hashJob : LayoutJob → ℕ) (fonts : FontsManager)
    (c : GalleyCache) (job : LayoutJob) {k : ℕ} (hne : hashJob job ≠ k) :
    lookupKey k (c.layout hashJob fonts job).2.1.cache = lookupKey k c.cache := by
  cases hl : lookupKey (hashJob job) c.cache with
  | some cached =>
    rw [layout_hit hashJob fonts c job hl]
    exact lookupKey_setKey_ne _ hne c.cache
  | none =>
    rw [layout_miss hashJob fonts c job hl]
    exact lookupKey_setKey_ne _ hne c.cache

theorem layout_keys_nodup (hashJob : LayoutJob → ℕ) (fonts : FontsManager)
    (c : GalleyCache) (job : LayoutJob) (hnd : (c.cache.map Prod.fst).Nodup) :
    (((c.layout hashJob fonts job).2.1.cache).map Prod.fst).Nodup := by
  cases hl : lookupKey (hashJob job) c.cache with
  | some cached =>
    rw [layout_hit hashJob fonts c job hl]
    dsimp only
    rw [map_fst_setKey_of_some _ hl]
    exact hnd
  | none =>
    rw [layout_miss hashJob fonts c job hl]
    dsimp only
    rw [map_fst_setKey_of_none _ hl]
    have hmem : hashJob job ∉ c.cache.map Prod.fst := (lookupKey_eq_none_iff _ _).mp hl
    simp [List.nodup_append, hnd, hmem]

theorem flush_keys_nodup (c : GalleyCache) (hnd : (c.cache.map Prod.fst).Nodup) :
    ((c.flush_cache.cache).map Prod.fst).Nodup := by
  unfold GalleyCache.flush_cache
  exact ((List.filter_sublist c.cache).map Prod.fst).nodup hnd

/-- A second identical request with no intervening per-frame step hits the
cache: same shared galley, unchanged cache state, no layout computation. -/
theorem layout_twice (hashJob : LayoutJob → ℕ) (fonts : FontsManager)
    (c : GalleyCache) (job : LayoutJob) :
    ((c.layout hashJob fonts job).2.1.layout hashJob fonts job).1 =
        (c.layout hashJob fonts job).1 ∧
    ((c.layout hashJob fonts job).2.1.layout hashJob fonts job).2.1 =
        (c.layout hashJob fonts job).2.1 ∧
    ((c.layout hashJob fonts job).2.1.layout hashJob fonts job).2.2 = false := by
  cases hl : lookupKey (hashJob job) c.cache with
  | some cached =>
    rw [layout_hit hashJob fonts c job hl]
    have hl2 : lookupKey (hashJob job)
        (setKey (hashJob job) (⟨c.generation, cached.galley⟩ : CachedGalley) c.cache) =
        some ⟨c.generation, cached.galley⟩ :=
      lookupKey_setKey_self _ _ c.cache
    rw [layout_hit hashJob fonts _ job hl2]
    dsimp only
    rw [setKey_setKey]
    exact ⟨rfl, rfl, rfl⟩
  | none =>
    rw [layout_miss hashJob fonts c job hl]
    have hl2 : lookupKey (hashJob job)
        (setKey (hashJob job)
          (⟨c.generation, ⟨c.next_uid, fonts.atlas.id, job⟩⟩ : CachedGalley) c.cache) =
        some ⟨c.generation, ⟨c.next_uid, fonts.atlas.id, job⟩⟩ :=
      lookupKey_setKey_self _ _ c.cache
    rw [layout_hit hashJob fonts _ job hl2]
    dsimp only
    rw [setKey_setKey]
    exact ⟨rfl, rfl, rfl⟩

/-- The vacant branch (the real layout computation) runs exactly on a miss. -/
theorem layout_computed_iff (hashJob : LayoutJob → ℕ) (fonts : FontsManager)
    (c : GalleyCache) (job : LayoutJob) :
    (c.layout hashJob fonts job).2.2 = true ↔
      lookupKey (hashJob job) c.cache = none := by
  cases hl : lookupKey (hashJob job) c.cache with
  | some cached =>
    rw [layout_hit hashJob fonts c job hl]
    simp
  | none =>
    rw [layout_miss hashJob fonts c job hl]
    simp

theorem runJobs_other_key (hashJob : LayoutJob → ℕ) (fonts : FontsManager) {k : ℕ} :
    ∀ (jobs : List LayoutJob) (c : GalleyCache), (∀ j ∈ jobs, hashJob j ≠ k) →
      lookupKey k (runJobs hashJob fonts c jobs).cache = lookupKey k c.cache ∧
      (runJobs hashJob fonts c jobs).generation = c.generation ∧
      ((c.cache.map Prod.fst).Nodup →
        ((runJobs hashJob fonts c jobs).cache.map Prod.fst).Nodup) := by
  intro jobs
  induction jobs with
  | nil => intro c h; exact ⟨rfl, rfl, fun hnd => hnd⟩
  | cons j rest ih =>
    intro c h
    have hj : hashJob j ≠ k := h j (List.mem_cons_self j rest)
    have hrest : ∀ j' ∈ rest, hashJob j' ≠ k := fun j' hj' => h j' (List.mem_cons_of_mem j hj')
    have step : runJobs hashJob fonts c (j :: rest) =
        runJobs hashJob fonts (c.layout hashJob fonts j).2.1 rest := rfl
    obtain ⟨h1, h2, h3⟩ := ih (c.layout hashJob fonts j).2.1 hrest
    refine ⟨?_, ?_, ?_⟩
    · rw [step, h1, layout_other_key hashJob fonts c j hj]
    · rw [step, h2, layout_generation]
    · intro hnd
      rw [step]
      exact h3 (layout_keys_nodup hashJob fonts c j hnd)

theorem flush_generation (c : GalleyCache) :
    c.flush_cache.generation = (c.generation + 1) % 4294967296 := rfl

theorem flush_iterate_generation :
    ∀ (n : ℕ) (c : GalleyCache), c.generation < 4294967296 →
      (GalleyCache.flush_cache^[n] c).generation = (c.generation + n) % 4294967296 := by
  intro n
  induction n with
  | zero =>
    intro c hc
    simpa using (Nat.mod_eq_of_lt hc).symm
  | succ n ih =>
    intro c hc
    rw [Function.iterate_succ_apply]
    have h1 : (c.flush_cache).generation = (c.generation + 1) % 4294967296 := rfl
    have h2 : (c.flush_cache).generation < 4294967296 := by
      rw [h1]; exact Nat.mod_lt _ (by norm_num)
    rw [ih c.flush_cache h2, h1, Nat.mod_add_mod]
    have : c.generation + 1 + n = c.generation + (n + 1) := by omega
    rw [this]

/-- C1: one-frame-recency eviction.  A flush retains exactly those entries
whose `last_used` stamp equals the cache's generation counter as it stood
before the flush advances it by one; consequently an entry stamped during
frame N (`last_used = c.generation`) that is not requested by any of frame
N+1's layout jobs is absent after the per-frame flush that closes frame
N+1. -/
theorem one_frame_recency_eviction
    (hashJob : LayoutJob → ℕ) (fonts : FontsManager) (c : GalleyCache)
    (hnd : (c.cache.map Prod.fst).Nodup) (k : ℕ) (e : CachedGalley)
    (hused : lookupKey k c.cache = some e) (hstamp : e.last_used = c.generation)
    (jobs : List LayoutJob) (hjobs : ∀ j ∈ jobs, hashJob j ≠ k) :
    (∀ (k' : ℕ) (e' : CachedGalley),
        lookupKey k' c.flush_cache.cache = some e' ↔
          lookupKey k' c.cache = some e' ∧ e'.last_used = c.generation) ∧
    lookupKey k ((runJobs hashJob fonts c.flush_cache jobs).flush_cache).cache = none := by
  refine ⟨fun k' e' => flush_retains_iff hnd k' e', ?_⟩
  have hnd1 : ((c.flush_cache.cache).map Prod.fst).Nodup := flush_keys_nodup c hnd
  have hsurv : lookupKey k c.flush_cache.cache = some e :=
    (flush_retains_iff hnd k e).mpr ⟨hused, hstamp⟩
  obtain ⟨hk2, hg2, hnd2f⟩ := runJobs_other_key hashJob fonts jobs c.flush_cache hjobs
  have hnd2 : (((runJobs hashJob fonts c.flush_cache jobs).cache).map Prod.fst).Nodup :=
    hnd2f hnd1
  cases hfin : lookupKey k ((runJobs hashJob fonts c.flush_cache jobs).flush_cache).cache with
  | none => rfl
  | some x =>
    obtain ⟨hx1, hx2⟩ := (flush_retains_iff hnd2 k x).mp hfin
    rw [hk2, hsurv] at hx1
    injection hx1 with hx1
    subst hx1
    rw [hg2, flush_generation, hstamp] at hx2
    exact absurd hx2 (Ne.symm (succ_mod_ne c.generation))

/-- C1 witness: a concrete entry stamped in the current frame survives the
frame boundary but is evicted by the next one when frame N+1 does not
request it. -/
theorem one_frame_recency_eviction_witness :
    lookupKey 11 ((runJobs sampleHash sampleFonts sampleCacheC1.flush_cache
        [sampleJob]).flush_cache).cache = none :=
  (one_frame_recency_eviction sampleHash sampleFonts sampleCacheC1 (by decide)
    11 ⟨5, sampleGalley⟩ (by decide) (by decide) [sampleJob] (by decide)).2

/-- C2: same-frame memoization.  On a fresh request the computation runs
(vacant branch), the result is stored stamped with the current generation;
an identical request with no intervening per-frame step returns the very
same shared galley, performs no computation, and leaves the cache state
unchanged (the hit path re-stamps `last_used` with the unchanged current
generation). -/
theorem same_frame_memoization
    (hashJob : LayoutJob → ℕ) (fonts : FontsManager) (c : GalleyCache)
    (job : LayoutJob) (hmiss : lookupKey (hashJob job) c.cache = none) :
    (c.layout hashJob fonts job).2.2 = true ∧
    lookupKey (hashJob job) (c.layout hashJob fonts job).2.1.cache =
      some ⟨c.generation, (c.layout hashJob fonts job).1⟩ ∧
    ((c.layout hashJob fonts job).2.1.layout hashJob fonts job).1 =
        (c.layout hashJob fonts job).1 ∧
    ((c.layout hashJob fonts job).2.1.layout hashJob fonts job).2.2 = false ∧
    ((c.layout hashJob fonts job).2.1.layout hashJob fonts job).2.1 =
        (c.layout hashJob fonts job).2.1 := by
  obtain ⟨h1, h2, h3⟩ := layout_twice hashJob fonts c job
  refine ⟨?_, ?_, h1, h3, h2⟩
  · exact (layout_computed_iff hashJob fonts c job).mpr hmiss
  · rw [layout_miss hashJob fonts c job hmiss]
    dsimp only
    exact lookupKey_setKey_self _ _ c.cache

/-- C2 witness: concrete fresh request computed once, identical same-frame
repeat returns it from the cache without computing. -/
theorem same_frame_memoization_witness :
    (GalleyCache.layout sampleHash sampleFonts {} sampleJob).2.2 = true ∧
    ((GalleyCache.layout sampleHash sampleFonts {} sampleJob).2.1.layout
        sampleHash sampleFonts sampleJob).2.2 = false :=
  ⟨(same_frame_memoization sampleHash sampleFonts {} sampleJob (by decide)).1,
   (same_frame_memoization sampleHash sampleFonts {} sampleJob (by decide)).2.2.2.1⟩

/-- C8: generation-counter wraparound.  The counter is advanced by wrapping
addition (total, never panicking): flushing at `2^32 − 1` wraps to 0, the
retention criterion at the boundary is the same stamp-equality as always,
after `2^32` per-frame steps the counter returns to its start, and a state
with counter 0 (after wrap) retains exactly the entries stamped 0. -/
theorem generation_wraparound
    (c : GalleyCache) (hnd : (c.cache.map Prod.fst).Nodup)
    (hg : c.generation = 4294967295) :
    c.flush_cache.generation = 0 ∧
    (∀ (k : ℕ) (e : CachedGalley),
        lookupKey k c.flush_cache.cache = some e ↔
          lookupKey k c.cache = some e ∧ e.last_used = 4294967295) ∧
    (∀ n : ℕ, (GalleyCache.flush_cache^[n] c).generation =
        (c.generation + n) % 4294967296) ∧
    (∀ c' : GalleyCache, (c'.cache.map Prod.fst).Nodup → c'.generation = 0 →
        ∀ (k : ℕ) (e : CachedGalley),
          lookupKey k c'.flush_cache.cache = some e ↔
            lookupKey k c'.cache = some e ∧ e.last_used = 0) := by
  refine ⟨?_, ?_, ?_, ?_⟩
  · rw [flush_generation, hg]
  · intro k e
    rw [← hg]
    exact flush_retains_iff hnd k e
  · intro n
    exact flush_iterate_generation n c (by rw [hg]; norm_num)
  · intro c' hnd' hg' k e
    rw [← hg']
    exact flush_retains_iff hnd' k e

/-- C8 witness: flushing a concrete cache at the wrap boundary yields
generation 0 while retaining the entry stamped `2^32 − 1`. -/
theorem generation_wraparound_witness :
    sampleCacheC8.flush_cache.generation = 0 ∧
    lookupKey 3 sampleCacheC8.flush_cache.cache = some ⟨4294967295, sampleGalley⟩ :=
  ⟨(generation_wraparound sampleCacheC8 (by decide) (by decide)).1,
   ((generation_wraparound sampleCacheC8 (by decide) (by decide)).2.1 3
      ⟨4294967295, sampleGalley⟩).mpr ⟨by decide, by decide⟩⟩

/-- C7: construction validation.  Constructing the orchestrator fails fast
(`none`, the assert panic) exactly when the device pixel ratio is not
strictly between 0 and 100; on success the fresh atlas has width
`min(max_texture_side, 8192)` and the small fixed initial height 64, and
the galley cache starts empty. -/
theorem construction_validation (ppp : ℚ) (mts : ℕ) (defs : FontDefinitions) :
    (FontPaintManager.new ppp mts defs = none ↔ ¬(0 < ppp ∧ ppp < 100)) ∧
    (∀ s : FontManagerAndGallyCache, FontPaintManager.new ppp mts defs = some s →
        s.font_manager.atlas.width = min mts 8192 ∧
        s.font_manager.atlas.height = 64 ∧
        s.font_manager.atlas.fill = 0 ∧
        s.galley_cache = {}) := by
  unfold FontPaintManager.new FontsManager.new
  by_cases h : 0 < ppp ∧ ppp < 100
  · rw [if_pos h]
    constructor
    · simp [h]
    · intro s hs
      simp only [Option.some.injEq] at hs
      subst hs
      exact ⟨rfl, rfl, rfl, rfl⟩
  · rw [if_neg h]
    constructor
    · simp [h]
    · intro s hs
      exact absurd hs (by simp)

/-- C7 witness: constructing at ratio 2, max side 1024 succeeds with a
1024-wide, 64-tall empty atlas and an empty galley cache. -/
theorem construction_validation_witness :
    sampleConstructed.font_manager.atlas.width = min 1024 8192 ∧
    sampleConstructed.font_manager.atlas.height = 64 ∧
    sampleConstructed.font_manager.atlas.fill = 0 ∧
    sampleConstructed.galley_cache = {} :=
  (construction_validation (mkRat 2 1) 1024 sampleDefinitions).2
    sampleConstructed (by decide)

/-- C5: tweak derivation and cache key.  On a fresh request the cache
constructs the implementation with
`effective_pixel_scale = round(pixel_scale * tweak.scale)` and vertical
offset `(effective_pixel_scale / pixels_per_point) * y_offset_factor +
y_offset`, stores it under the key `(effective_pixel_scale, font name)`,
returns exactly the cached instance (without construction) on every later
request with the same key, and entries under any other font name are
untouched — names are cached separately even when their bytes coincide. -/
theorem font_impl_tweak_and_key
    (c : FontsImplCache) (s : ℕ) (n : String) (tweak : FontTweak) (abf : FontArc)
    (hreg : lookupKey n c.ab_glyph_fonts = some (tweak, abf))
    (hmiss : lookupKey (f32ToU32 (qmul (mkRat s 1) tweak.scale), n) c.cache = none) :
    ∃ (impl : FontImpl) (c1 : FontsImplCache),
      c.font_impl s n = some (impl, c1, true) ∧
      impl.scale_in_pixels = f32ToU32 (qmul (mkRat s 1) tweak.scale) ∧
      impl.y_offset_points =
        qadd (qmul (qdiv (mkRat impl.scale_in_pixels 1) c.pixels_per_point)
          tweak.y_offset_factor) tweak.y_offset ∧
      lookupKey (impl.scale_in_pixels, n) c1.cache = some impl ∧
      c1.font_impl s n = some (impl, c1, false) ∧
      (∀ (k : ℕ) (n' : String), n' ≠ n →
        lookupKey (k, n') c1.cache = lookupKey (k, n') c.cache) := by
  refine ⟨builtFontImpl c s n tweak abf,
    { c with cache := (setKey (f32ToU32 (qmul (mkRat s 1) tweak.scale), n)
        (builtFontImpl c s n tweak abf) c.cache) },
    ?_, rfl, rfl, ?_, ?_, ?_⟩
  · unfold FontsImplCache.font_impl
    rw [hreg]
    dsimp only
    rw [hmiss]
    rfl
  · exact lookupKey_setKey_self _ _ c.cache
  · unfold FontsImplCache.font_impl
    dsimp only
    rw [hreg]
    dsimp only
    rw [lookupKey_setKey_self _ _ c.cache]
  · intro k n' hne
    exact lookupKey_setKey_ne _ (fun hp => hne (congrArg Prod.snd hp).symm) c.cache

/-- C5 witness: the sample catalog's font at pixel scale 28 (ratio 2, size
14, tweak scale 1) constructs once and is served from the cache after. -/
theorem font_impl_tweak_and_key_witness :
    ((FontsImplCache.new 0 (mkRat 2 1) sampleDefinitions.font_data_map).font_impl
        28 "Ubuntu-Light").isSome = true := by
  obtain ⟨impl, c1, heq, -⟩ :=
    font_impl_tweak_and_key
      (FontsImplCache.new 0 (mkRat 2 1) sampleDefinitions.font_data_map)
      28 "Ubuntu-Light" FontTweak.default ⟨[0, 1], 0⟩ (by decide) (by decide)
  rw [heq]
  rfl

theorem font_impl_none_iff (c : FontsImplCache) (s : ℕ) (n : String) :
    c.font_impl s n = none ↔ lookupKey n c.ab_glyph_fonts = none := by
  unfold FontsImplCache.font_impl
  cases hl : lookupKey n c.ab_glyph_fonts with
  | none => simp
  | some p =>
    obtain ⟨tweak, abf⟩ := p
    dsimp only
    cases lookupKey (f32ToU32 (qmul (mkRat s 1) tweak.scale), n) c.cache <;> simp

theorem resolveFonts_none_iff (s : ℕ) :
    ∀ (names : List String) (c : FontsImplCache),
      resolveFonts s c names = none ↔
        ∃ n ∈ names, lookupKey n c.ab_glyph_fonts = none := by
  intro names
  induction names with
  | nil => intro c; simp [resolveFonts]
  | cons n rest ih =>
    intro c
    unfold resolveFonts
    cases hf : c.font_impl s n with
    | none =>
      dsimp only
      exact iff_of_true rfl ⟨n, List.mem_cons_self n rest, (font_impl_none_iff c s n).mp hf⟩
    | some r =>
      obtain ⟨impl, c1, b⟩ := r
      have hab : c1.ab_glyph_fonts = c.ab_glyph_fonts := (font_impl_preserves hf).2.2
      have hn : lookupKey n c.ab_glyph_fonts ≠ none := by
        intro hz
        rw [(font_impl_none_iff c s n).mpr hz] at hf
        exact absurd hf (by simp)
      dsimp only
      by_cases hresn : resolveFonts s c1 rest = none
      · rw [hresn]
        obtain ⟨n', hn', hz⟩ := (ih c1).mp hresn
        exact iff_of_true rfl ⟨n', List.mem_cons_of_mem n hn', by rw [← hab]; exact hz⟩
      · obtain ⟨pr, hres⟩ := Option.ne_none_iff_exists'.mp hresn
        obtain ⟨l, c2⟩ := pr
        rw [hres]
        refine iff_of_false (by simp) ?_
        rintro ⟨n', hmem, hz⟩
        rcases List.mem_cons.mp hmem with rfl | hmem'
        · exact absurd hz hn
        · exact hresn ((ih c1).mpr ⟨n', hmem', by rw [hab]; exact hz⟩)

/-- C6: fallback-chain resolution fails fast exactly on configuration
errors.  On a not-yet-memoized style key, resolution panics (`none`) iff
the family has no catalog entry or some chain member is unregistered;
otherwise it returns the chain obtained by resolving each name through the
implementation cache in priority order, memoizes it under
`(pixel scale, family)`, and a repeated call returns the memoized chain
with no further work. -/
theorem fallback_chain_resolution
    (m : FontsManager) (fid : FontId)
    (hmiss : lookupKey (m.fonts_impl_cache.scale_as_pixels fid.size, fid.font_type)
        m.font_impl_manager_map = none) :
    (m.font fid = none ↔
      lookupKey fid.font_type m.definitions.type_fonts = none ∨
      ∃ names, lookupKey fid.font_type m.definitions.type_fonts = some names ∧
        ∃ n ∈ names, lookupKey n m.fonts_impl_cache.ab_glyph_fonts = none) ∧
    (∀ (mgr : FontImplManager) (m' : FontsManager), m.font fid = some (mgr, m') →
      ∃ names, lookupKey fid.font_type m.definitions.type_fonts = some names ∧
        resolveFonts (m.fonts_impl_cache.scale_as_pixels fid.size)
            m.fonts_impl_cache names = some (mgr.fonts, m'.fonts_impl_cache) ∧
        lookupKey (m.fonts_impl_cache.scale_as_pixels fid.size, fid.font_type)
            m'.font_impl_manager_map = some mgr ∧
        m'.font fid = some (mgr, m')) := by
  constructor
  · unfold FontsManager.font
    dsimp only
    rw [hmiss]
    cases htf : lookupKey fid.font_type m.definitions.type_fonts with
    | none =>
      dsimp only
      exact iff_of_true rfl (Or.inl rfl)
    | some names =>
      dsimp only
      by_cases hresn : resolveFonts (m.fonts_impl_cache.scale_as_pixels fid.size)
          m.fonts_impl_cache names = none
      · rw [hresn]
        exact iff_of_true rfl (Or.inr ⟨names, rfl,
          (resolveFonts_none_iff _ names m.fonts_impl_cache).mp hresn⟩)
      · obtain ⟨pr, hres⟩ := Option.ne_none_iff_exists'.mp hresn
        obtain ⟨impls, cache1⟩ := pr
        rw [hres]
        refine iff_of_false (by simp) ?_
        rintro (h1 | ⟨names', hnames', hex⟩)
        · exact absurd h1 (by simp)
        · have heqn : names = names' := by injection hnames'
          subst heqn
          exact hresn ((resolveFonts_none_iff _ names m.fonts_impl_cache).mpr hex)
  · intro mgr m' h
    unfold FontsManager.font at h
    dsimp only at h
    rw [hmiss] at h
    cases htf : lookupKey fid.font_type m.definitions.type_fonts with
    | none => rw [htf] at h; exact absurd h (by simp)
    | some names =>
      rw [htf] at h
      dsimp only at h
      cases hres : resolveFonts (m.fonts_impl_cache.scale_as_pixels fid.size)
          m.fonts_impl_cache names with
      | none => rw [hres] at h; exact absurd h (by simp)
      | some pr =>
        obtain ⟨impls, cache1⟩ := pr
        rw [hres] at h
        simp only [Option.some.injEq, Prod.mk.injEq] at h
        obtain ⟨hmgr, hm'⟩ := h
        subst hmgr
        subst hm'
        refine ⟨names, rfl, hres, ?_, ?_⟩
        · exact lookupKey_setKey_self _ _ m.font_impl_manager_map
        · unfold FontsManager.font
          dsimp only
          have hscale : (cache1.scale_as_pixels fid.size) =
              (m.fonts_impl_cache.scale_as_pixels fid.size) := by
            unfold FontsImplCache.scale_as_pixels
            rw [(resolveFonts_preserves hres).2.1]
          rw [hscale, lookupKey_setKey_self _ _ m.font_impl_manager_map]

/-- C6 witness: the sample manager resolves `(14 pt, Proportional)` without
a configuration panic (family bound, chain member registered). -/
theorem fallback_chain_resolution_witness :
    FontsManager.font sampleFonts ⟨mkRat 14 1, FontType.Proportional⟩ ≠ none := by
  intro hnone
  have h := (fallback_chain_resolution sampleFonts
      ⟨mkRat 14 1, FontType.Proportional⟩ (by decide)).1
  rcases h.mp hnone with h1 | ⟨names, hnames, hex⟩
  · exact absurd h1 (by decide)
  · have he : lookupKey (FontType.Proportional)
        sampleFonts.definitions.type_fonts = some ["Ubuntu-Light"] := by decide
    rw [he] at hnames
    injection hnames with hnames
    subst hnames
    exact absurd hex (by decide)

/-- C3: per-frame invalidation.  With a valid new ratio, `begin_frame`
succeeds; it discards and rebuilds the entire orchestrator state from the
retained catalog (fresh atlas, fresh caches, emptied galley cache) iff at
least one of the three triggers fires — ratio moved by more than 1e-3,
max texture side changed, or atlas fill ratio above 0.8 — and in either
case it then runs the galley cache's per-frame eviction. -/
theorem begin_frame_triggers
    (s : FontManagerAndGallyCache) (ppp : ℚ) (mts : ℕ)
    (h0 : 0 < ppp) (h100 : ppp < 100) :
    ∃ s', FontPaintManager.begin_frame s ppp mts = some s' ∧
      (((mkRat 1 1000 < qabs (qsub s.font_manager.pixels_per_point ppp)) ∨
        s.font_manager.max_texture_side ≠ mts ∨
        mkRat 4 5 < s.font_manager.atlas.fill) →
        ∃ fm, FontsManager.new (s.font_manager.atlas.id + 1) ppp mts
            s.font_manager.definitions = some fm ∧
          s' = ⟨fm, GalleyCache.flush_cache {}⟩) ∧
      (¬((mkRat 1 1000 < qabs (qsub s.font_manager.pixels_per_point ppp)) ∨
        s.font_manager.max_texture_side ≠ mts ∨
        mkRat 4 5 < s.font_manager.atlas.fill) →
        s' = { s with galley_cache := s.galley_cache.flush_cache }) := by
  have hnewS : FontsManager.new (s.font_manager.atlas.id + 1) ppp mts
      s.font_manager.definitions =
      some { pixels_per_point := ppp, max_texture_side := mts,
             definitions := s.font_manager.definitions,
             atlas := TextureAtlas.new (s.font_manager.atlas.id + 1) (min mts 8192) 64,
             fonts_impl_cache := FontsImplCache.new (s.font_manager.atlas.id + 1) ppp
               s.font_manager.definitions.font_data_map,
             font_impl_manager_map := [] } := by
    unfold FontsManager.new
    rw [if_pos ⟨h0, h100⟩]
  by_cases hT : (mkRat 1 1000 < qabs (qsub s.font_manager.pixels_per_point ppp)) ∨
      s.font_manager.max_texture_side ≠ mts ∨
      mkRat 4 5 < s.font_manager.atlas.fill
  · have hb : (decide (mkRat 1 1000 < qabs (qsub s.font_manager.pixels_per_point ppp)) ||
        decide (s.font_manager.max_texture_side ≠ mts) ||
        decide (mkRat 4 5 < s.font_manager.atlas.fill)) = true := by
      simpa [Bool.or_eq_true, decide_eq_true_iff, or_assoc] using hT
    refine ⟨⟨_, GalleyCache.flush_cache {}⟩, ?_, fun _ => ⟨_, hnewS, rfl⟩,
      fun hc => absurd hT hc⟩
    unfold FontPaintManager.begin_frame
    dsimp only
    rw [hb, if_pos rfl, hnewS]
  · have hb : (decide (mkRat 1 1000 < qabs (qsub s.font_manager.pixels_per_point ppp)) ||
        decide (s.font_manager.max_texture_side ≠ mts) ||
        decide (mkRat 4 5 < s.font_manager.atlas.fill)) = false := by
      simp only [Bool.or_eq_false_iff, decide_eq_false_iff_not]
      exact ⟨⟨fun h1 => hT (Or.inl h1), fun h2 => hT (Or.inr (Or.inl h2))⟩,
        fun h3 => hT (Or.inr (Or.inr h3))⟩
    refine ⟨{ s with galley_cache := s.galley_cache.flush_cache }, ?_,
      fun hc => absurd hc hT, fun _ => rfl⟩
    unfold FontPaintManager.begin_frame
    dsimp only
    rw [hb, if_neg (by simp)]

/-- C3 witness: changing the ratio from 2 to 3 at a concrete constructed
state makes `begin_frame` succeed (and rebuild). -/
theorem begin_frame_triggers_witness :
    FontPaintManager.begin_frame sampleConstructed (mkRat 3 1) 1024 ≠ none := by
  obtain ⟨s', hs', -, -⟩ :=
    begin_frame_triggers sampleConstructed (mkRat 3 1) 1024 (by decide) (by decide)
  rw [hs']
  simp

theorem lookupKey_mem {α β : Type} [DecidableEq α] {k : α} :
    ∀ {l : List (α × β)} {v : β}, lookupKey k l = some v → (k, v) ∈ l := by
  intro l
  induction l with
  | nil => intro v h; simp [lookupKey] at h
  | cons hd t ih =>
    obtain ⟨a, b⟩ := hd
    intro v h
    by_cases ha : a = k
    · subst ha
      have hv : some b = some v := by simpa [lookupKey] using h
      injection hv with hv
      subst hv
      exact List.mem_cons_self _ _
    · simp only [lookupKey, if_neg ha] at h
      exact List.mem_cons_of_mem _ (ih h)

theorem mem_setKey {α β : Type} [DecidableEq α] {k : α} {v : β} :
    ∀ {l : List (α × β)} {x : α × β}, x ∈ setKey k v l → x = (k, v) ∨ x ∈ l := by
  intro l
  induction l with
  | nil =>
    intro x h
    simp only [setKey, List.mem_singleton] at h
    exact Or.inl h
  | cons hd t ih =>
    obtain ⟨a, b⟩ := hd
    intro x h
    by_cases ha : a = k
    · rw [show setKey k v ((a, b) :: t) = (k, v) :: t from by simp [setKey, ha]] at h
      rcases List.mem_cons.mp h with h | h
      · exact Or.inl h
      · exact Or.inr (List.mem_cons_of_mem _ h)
    · rw [show setKey k v ((a, b) :: t) = (a, b) :: setKey k v t from by
        simp [setKey, ha]] at h
      rcases List.mem_cons.mp h with h | h
      · exact Or.inr (by simp [h])
      · rcases ih h with h1 | h1
        · exact Or.inl h1
        · exact Or.inr (List.mem_cons_of_mem _ h1)

/-- Embeds `begin_frame` either keeps the manager and just flushes, or rebuilds
everything from the retained catalog with an emptied galley cache. -/
theorem begin_frame_cases {s s' : FontManagerAndGallyCache} {p : ℚ} {t : ℕ}
    (h : FontPaintManager.begin_frame s p t = some s') :
    (s'.font_manager = s.font_manager ∧
      s'.galley_cache = s.galley_cache.flush_cache) ∨
    (s'.galley_cache = GalleyCache.flush_cache {} ∧
      ∃ fm, FontsManager.new (s.font_manager.atlas.id + 1) p t
          s.font_manager.definitions = some fm ∧ s'.font_manager = fm) := by
  unfold FontPaintManager.begin_frame at h
  dsimp only at h
  by_cases hb : (decide (mkRat 1 1000 < qabs (qsub s.font_manager.pixels_per_point p)) ||
      decide (s.font_manager.max_texture_side ≠ t) ||
      decide (mkRat 4 5 < s.font_manager.atlas.fill)) = true
  · rw [hb, if_pos rfl] at h
    cases hnew : FontsManager.new (s.font_manager.atlas.id + 1) p t
        s.font_manager.definitions with
    | none => rw [hnew] at h; exact absurd h (by simp)
    | some fm =>
      rw [hnew] at h
      simp only [Option.some.injEq] at h
      refine Or.inr ?_
      rw [← h]
      exact ⟨rfl, fm, rfl, rfl⟩
  · rw [Bool.not_eq_true] at hb
    rw [hb, if_neg (by simp)] at h
    simp only [Option.some.injEq] at h
    rw [← h]
    exact Or.inl ⟨rfl, rfl⟩

/-- Every galley a layout request caches references the current atlas. -/
theorem layout_job_invariant (hashJob : LayoutJob → ℕ)
    (s : FontManagerAndGallyCache) (job : LayoutJob)
    (ih : ∀ kv ∈ s.galley_cache.cache, kv.2.galley.atlas_id = s.font_manager.atlas.id) :
    ∀ kv ∈ (s.layout_job hashJob job).2.1.galley_cache.cache,
      kv.2.galley.atlas_id = (s.layout_job hashJob job).2.1.font_manager.atlas.id := by
  intro kv hkv
  have hcache : (s.layout_job hashJob job).2.1.galley_cache =
      (s.galley_cache.layout hashJob s.font_manager job).2.1 := rfl
  rw [hcache] at hkv
  cases hl : lookupKey (hashJob job) s.galley_cache.cache with
  | some cached =>
    rw [layout_hit hashJob s.font_manager s.galley_cache job hl] at hkv
    dsimp only at hkv
    rcases mem_setKey hkv with rfl | hmem
    · exact ih (hashJob job, cached) (lookupKey_mem hl)
    · exact ih kv hmem
  | none =>
    rw [layout_miss hashJob s.font_manager s.galley_cache job hl] at hkv
    dsimp only at hkv
    rcases mem_setKey hkv with rfl | hmem
    · rfl
    · exact ih kv hmem

/-- C4: atomic invalidation invariant.  In every reachable orchestrator
state, every cached galley references the current atlas instance; and
whenever `begin_frame` swaps the atlas identity (the only path that does),
the galley cache of the resulting state is empty in the same step. -/
theorem atlas_invalidation_invariant
    (hashJob : LayoutJob → ℕ) (ppp : ℚ) (mts : ℕ) (defs : FontDefinitions)
    (s0 s : FontManagerAndGallyCache)
    (hinit : FontPaintManager.new ppp mts defs = some s0)
    (hreach : OrchestratorReachable hashJob s0 s) :
    (∀ kv ∈ s.galley_cache.cache, kv.2.galley.atlas_id = s.font_manager.atlas.id) ∧
    (∀ (p : ℚ) (t : ℕ) (s' : FontManagerAndGallyCache),
        FontPaintManager.begin_frame s p t = some s' →
        s'.font_manager.atlas.id ≠ s.font_manager.atlas.id →
        s'.galley_cache.cache = []) := by
  constructor
  · have hstart : ∀ kv ∈ s0.galley_cache.cache,
        kv.2.galley.atlas_id = s0.font_manager.atlas.id := by
      unfold FontPaintManager.new at hinit
      cases hnew : FontsManager.new 0 ppp mts defs with
      | none => rw [hnew] at hinit; exact absurd hinit (by simp)
      | some fm =>
        rw [hnew] at hinit
        injection hinit with hinit
        rw [← hinit]
        intro kv hkv
        simp at hkv
    induction hreach with
    | refl => exact hstart
    | tail hsteps hstep ih =>
      rename_i b c
      cases hstep with
      | begin_frame s2 p t h =>
        rcases begin_frame_cases h with ⟨hfm, hgc⟩ | ⟨hgc, fm, hnew, hfm⟩
        · intro kv hkv
          rw [hgc] at hkv
          unfold GalleyCache.flush_cache at hkv
          dsimp only at hkv
          have hkv' : kv ∈ b.galley_cache.cache := List.mem_of_mem_filter hkv
          rw [hfm]
          exact ih kv hkv'
        · intro kv hkv
          rw [hgc] at hkv
          simp [GalleyCache.flush_cache] at hkv
      | layout_job job => exact layout_job_invariant hashJob b job ih
      | atlas_external fill height =>
        intro kv hkv
        exact ih kv hkv
      | ensure_fonts hasGlyph sysQuery text fid m1 h =>
        intro kv hkv
        have ha : m1.atlas = b.font_manager.atlas := (ensure_preserves h).2.2.1
        have hkv2 : kv.2.galley.atlas_id = b.font_manager.atlas.id := ih kv hkv
        rw [hkv2, ha]
  · intro p t s' h hid
    rcases begin_frame_cases h with ⟨hfm, -⟩ | ⟨hgc, fm, hnew, hfm⟩
    · exact absurd (by rw [hfm]) hid
    · rw [hgc]
      rfl

/-- C4 witness: at the concrete constructed state, the ratio-change rebuild
swaps the atlas identity and leaves zero cached galleys in the same step. -/
theorem atlas_invalidation_invariant_witness :
    sampleRebuilt.galley_cache.cache = [] :=
  (atlas_invalidation_invariant sampleHash (mkRat 2 1) 1024 sampleDefinitions
      sampleConstructed sampleConstructed (by decide) Relation.ReflTransGen.refl).2
    (mkRat 3 1) 1024 sampleRebuilt (by decide) (by decide)

/-- C9: dynamic fallback extension frame property.  Whatever the glyph
oracle, system query results, text and style, a successful
`ensure_correct_fonts_for_text` leaves the galley cache, the atlas
instance (hence its identity, on both the manager and the implementation
cache), the device pixel ratio and the max texture side unchanged — it
may only extend the catalog, the parsed-font map, the implementation
cache and the live fallback chains. -/
theorem ensure_fonts_frame_property
    (hasGlyph : FontImplManager → Char → Bool) (sysQuery : Char → List SysFont)
    (s : FontManagerAndGallyCache) (text : List Char) (fid : FontId)
    (m1 : FontsManager)
    (h : FontsManager.ensure_correct_fonts_for_text hasGlyph sysQuery
        s.font_manager text fid = some m1) :
    ({ s with font_manager := m1 } : FontManagerAndGallyCache).galley_cache
        = s.galley_cache ∧
    m1.atlas = s.font_manager.atlas ∧
    m1.fonts_impl_cache.atlas_id = s.font_manager.fonts_impl_cache.atlas_id ∧
    m1.pixels_per_point = s.font_manager.pixels_per_point ∧
    m1.max_texture_side = s.font_manager.max_texture_side := by
  obtain ⟨p1, p2, p3, p4, -⟩ := ensure_preserves h
  exact ⟨rfl, p3, p4, p1, p2⟩

/-- C9 witness: with an all-covering glyph oracle over text "a" on the
already-memoized sample state, the extension succeeds and changes none of
the protected fields. -/
theorem ensure_fonts_frame_property_witness :
    sampleResolvedPair.font_manager.atlas = sampleResolvedPair.font_manager.atlas ∧
    sampleResolvedPair.font_manager.pixels_per_point = mkRat 2 1 :=
  ⟨(ensure_fonts_frame_property (fun _ _ => true) (fun _ => [])
      sampleResolvedPair ['a'] ⟨mkRat 14 1, FontType.Proportional⟩
      sampleResolvedPair.font_manager (by decide)).2.1,
   ((ensure_fonts_frame_property (fun _ _ => true) (fun _ => [])
      sampleResolvedPair ['a'] ⟨mkRat 14 1, FontType.Proportional⟩
      sampleResolvedPair.font_manager (by decide)).2.2.2.1).trans (by decide)⟩

/-- C10: `layout_no_wrap` builds the same job as `layout` at wrap width
`f32::INFINITY` (both delegate to `layout_job` on
`LayoutJob::simple(text, font_id, color, INFINITY)`), so within the same
frame the two return the same shared galley and the second call performs
no layout computation. -/
theorem layout_no_wrap_equiv
    (hashJob : LayoutJob → ℕ) (s : FontManagerAndGallyCache)
    (text : List Char) (font_id : FontId) (color : ℕ) :
    FontPaintManager.layout_no_wrap hashJob s text font_id color =
      FontPaintManager.layout hashJob s text font_id color ⊤ ∧
    (FontPaintManager.layout_no_wrap hashJob
        (FontPaintManager.layout hashJob s text font_id color ⊤).2.1
        text font_id color).1 =
      (FontPaintManager.layout hashJob s text font_id color ⊤).1 ∧
    (FontPaintManager.layout_no_wrap hashJob
        (FontPaintManager.layout hashJob s text font_id color ⊤).2.1
        text font_id color).2.2 = false := by
  obtain ⟨h1, h2, h3⟩ := layout_twice hashJob s.font_manager s.galley_cache
    (LayoutJob.simple text font_id color ⊤)
  exact ⟨rfl, h1, h3⟩
